import Mathlib

/-!
Verification of the mc-jop-subdivider tile planner and exporter.

The definitions below are a shallow embedding of the Go sources: the
canvas catalog `canvasTypes`, the occupancy grid (`emptyRect`, `mark`,
embedding `OccGrid.Empty` / `OccGrid.Mark`), the greedy planner
`MakeTilePlan` (with its row-group / tile-index bookkeeping), and the
tile exporter (`buildPixels`, `exportTile`, `exportLoop`).  Machine
integers are modelled as `Nat`/`Int` with explicit truncation where the
code truncates (`% 2 ^ 8` for the `uint8` casts, `wrap64` for `int64`
addition); images are total pixel functions with declared bounds, and
`crop` is the in-bounds behaviour of `draw.Draw` with `draw.Src`.
-/

namespace Subdivider

/-- A pixel as returned by Go's `Color.RGBA()`: four channels in native
16-bit precision (each in `[0, 0xFFFF]`). -/
structure Pixel where
  r : Nat
  g : Nat
  b : Nat
  a : Nat
deriving DecidableEq

/-- An in-memory decoded image: declared pixel bounds plus a pixel lookup. -/
structure Image where
  width : Nat
  height : Nat
  pix : Nat → Nat → Pixel

/-- `crop img x y w h` returns the `w×h` sub-image whose pixel `(px, py)`
is the source pixel `(x + px, y + py)` — the effect of the Go `crop`
helper (`draw.Draw` with `draw.Src` from rectangle `(x, y)-(x+w, y+h)`)
for regions inside the source bounds, which is the only way the planner
calls it. -/
def crop (img : Image) (x y w h : Nat) : Image :=
  { width := w, height := h, pix := fun px py => img.pix (x + px) (y + py) }

/-- A catalog entry: pixel dimensions, dimensions in 16-pixel units, and
the Joy-of-Painting type code (`ct` byte). -/
structure Canvas where
  PxW : Nat
  PxH : Nat
  UnitsW : Nat
  UnitsH : Nat
  CT : Nat
deriving DecidableEq, Repr

/-- The fixed canvas catalog, in the declared largest-first order. -/
def canvasTypes : List Canvas :=
  [ { PxW := 32, PxH := 32, UnitsW := 2, UnitsH := 2, CT := 1 },
    { PxW := 32, PxH := 16, UnitsW := 2, UnitsH := 1, CT := 2 },
    { PxW := 16, PxH := 32, UnitsW := 1, UnitsH := 2, CT := 3 },
    { PxW := 16, PxH := 16, UnitsW := 1, UnitsH := 1, CT := 0 } ]

/-- Pixel area of a catalog entry. -/
def Canvas.areaPx (can : Canvas) : Nat := can.PxW * can.PxH

/-- A planned tile.  The Go `Tile` struct stores the cropped image, the
type code and the naming indices; the anchor cell `(r, c)` and the chosen
catalog entry are kept explicitly here (in the Go code they are implicit
in the crop rectangle of `Img`). -/
structure Tile where
  img : Image
  canvas : Canvas
  fileBase : String
  tileIndex : Nat
  rowIndex : Nat
  r : Nat
  c : Nat

/-- The occupancy grid, `false` = free.  The Go code allocates a
`rows×cols` boolean matrix; out-of-range cells are simply never read. -/
abbrev Occ := Nat → Nat → Bool

/-- `OccGrid.Empty r c h w`: true iff the `h×w` cells from `(r, c)` are
all free. -/
def emptyRect (occ : Occ) (r c h w : Nat) : Bool :=
  (List.range h).all fun dy => (List.range w).all fun dx => !occ (r + dy) (c + dx)

/-- `OccGrid.Mark r c h w`: mark the `h×w` cells from `(r, c)` occupied. -/
def mark (occ : Occ) (r c h w : Nat) : Occ := fun y x =>
  if r ≤ y ∧ y < r + h ∧ c ≤ x ∧ x < c + w then true else occ y x

/-- The fit test applied to a catalog entry inside the planner's
selection loop: the footprint anchored at `(r, c)` stays within the grid
bounds and is entirely free. -/
def fitsAt (occ : Occ) (rows cols r c : Nat) (can : Canvas) : Bool :=
  decide (c + can.UnitsW ≤ cols) && decide (r + can.UnitsH ≤ rows) &&
    emptyRect occ r c can.UnitsH can.UnitsW

/-- The planner's selection loop: the first catalog entry, in catalog
order, that fits at `(r, c)`. -/
def selectCanvas (occ : Occ) (rows cols r c : Nat) : Option Canvas :=
  canvasTypes.find? (fitsAt occ rows cols r c)

/-- File base name built for a placement: `<nameRoot>_<rowIndex>_<tileIndex>`
(the Go `fmt.Sprintf("%s_%d_%d", nameRoot, rowIndex, tileIndex)`). -/
def mkFileBase (nameRoot : String) (rowIndex tileIndex : Nat) : String :=
  nameRoot ++ "_" ++ Nat.repr rowIndex ++ "_" ++ Nat.repr tileIndex

/-- The inner (column) loop of `MakeTilePlan` for one physical row `r`,
carrying the occupancy grid, the accumulated tile list, the tile index
within the current row group and the `hasValidTileInRow` flag.  Returns
`none` on the `no canvas fits` error path. -/
def scanRowCells (img : Image) (rows cols : Nat) (nameRoot : String) (r rowIndex : Nat) :
    List Nat → Occ → List Tile → Nat → Bool → Option (Occ × List Tile × Nat × Bool)
  | [], occ, tiles, tileIndex, hasValid => some (occ, tiles, tileIndex, hasValid)
  | c :: cs, occ, tiles, tileIndex, hasValid =>
    if emptyRect occ r c 1 1 then
      match selectCanvas occ rows cols r c with
      | none => none
      | some can =>
        scanRowCells img rows cols nameRoot r rowIndex cs
          (mark occ r c can.UnitsH can.UnitsW)
          (tiles ++ [{ img := crop img (c * 16) (r * 16) can.PxW can.PxH,
                       canvas := can,
                       fileBase := mkFileBase nameRoot rowIndex tileIndex,
                       tileIndex := tileIndex, rowIndex := rowIndex,
                       r := r, c := c }])
          (tileIndex + 1) true
    else
      scanRowCells img rows cols nameRoot r rowIndex cs occ tiles tileIndex hasValid

/-- The outer (row) loop of `MakeTilePlan`: scan each physical row, and
advance the row-group index only when the row produced a placement. -/
def scanRows (img : Image) (rows cols : Nat) (nameRoot : String) :
    List Nat → Occ → List Tile → Nat → Option (List Tile)
  | [], _, tiles, _ => some tiles
  | r :: rs, occ, tiles, rowIndex =>
    match scanRowCells img rows cols nameRoot r rowIndex (List.range cols) occ tiles 0 false with
    | none => none
    | some (occ2, tiles2, _, hasValid) =>
      scanRows img rows cols nameRoot rs occ2 tiles2
        (if hasValid then rowIndex + 1 else rowIndex)

/-- `MakeTilePlan`: greedy largest-first packing of the `rows×cols` unit
grid, scanning cells in row-major order.  `none` is the error return. -/
def MakeTilePlan (img : Image) (rows cols : Nat) (nameRoot : String) : Option (List Tile) :=
  scanRows img rows cols nameRoot (List.range rows) (fun _ _ => false) [] 0

/-- Packing of one pixel in `exportTile`: alpha `0xFF` in the most
significant byte, then red, green, blue, each channel truncated from
16-bit native precision to 8 bits by `uint8(v >> 8)` (i.e. `v / 2^8 % 2^8`).
The Go bitwise-or of the shifted bytes equals this sum because the four
byte fields are disjoint. -/
def packPixel (p : Pixel) : Nat :=
  0xFF * 2 ^ 24 + p.r / 2 ^ 8 % 2 ^ 8 * 2 ^ 16 + p.g / 2 ^ 8 % 2 ^ 8 * 2 ^ 8 +
    p.b / 2 ^ 8 % 2 ^ 8

/-- The pixel array built by `exportTile`: `y` outer from `0` to `H-1`,
`x` inner from `0` to `W-1`, one packed value per pixel of the cropped
tile image, written at consecutive indices. -/
def buildPixels (img : Image) : List Nat :=
  (List.range img.height).flatMap fun y =>
    (List.range img.width).map fun x => packPixel (img.pix x y)

/-- The constant namespace UUID of the producing tool. -/
def paintingUUID : String := "d1ebe29f-f4e9-4572-83cd-8b2cdbfc2420"

/-- Two's-complement wrap of an integer into the `int64` range, the
result of Go `int64` addition `baseID + counter` when it overflows. -/
def wrap64 (z : Int) : Int := (z + 2 ^ 63) % 2 ^ 64 - 2 ^ 63

/-- Go `int64` addition. -/
def int64Add (a b : Int) : Int := wrap64 (a + b)

/-- The tile identity written in the descriptor's `name` field:
`fmt.Sprintf("%s_%d", paintingUUID, cfg.BaseID+counter)`. -/
def mkName (baseID counter : Int) : String :=
  paintingUUID ++ "_" ++ Int.repr (int64Add baseID counter)

/-- Per-run configuration (the fields of the Go `Config` that the
exporter reads). -/
structure Config where
  author : String
  title : String
  outDir : String
  nameRoot : String
  baseID : Int

/-- The tagged record encoded into a `.paint` descriptor. -/
structure NbtData where
  generation : Int
  ct : Nat
  pixels : List Nat
  v : Int
  author : String
  title : String
  name : String

/-- The two artifacts `exportTile` produces for one tile: the raster
file path, the descriptor file path, and the descriptor's content. -/
structure ExportedTile where
  bmpPath : String
  paintPath : String
  data : NbtData

/-- `filepath.Join` for the one-level joins the exporter performs. -/
def pathJoin (dir file : String) : String := dir ++ "/" ++ file

/-- `exportTile`: the two files written for one tile.  `W`/`H` are read
from the tile image's bounds; the descriptor carries `generation = 1`,
the tile's `ct`, the packed pixel array, schema version `v = 2`, author,
title, and the tile identity. -/
def exportTile (cfg : Config) (tile : Tile) (counter : Int) : ExportedTile :=
  { bmpPath := pathJoin cfg.outDir (tile.fileBase ++ ".bmp"),
    paintPath := pathJoin cfg.outDir (tile.fileBase ++ ".paint"),
    data := { generation := 1, ct := tile.canvas.CT, pixels := buildPixels tile.img,
              v := 2, author := cfg.author, title := cfg.title,
              name := mkName cfg.baseID counter } }

/-- The export loop of `run`: export each planned tile in order, the
counter starting at `0` (at the first call) and incremented by `1` after
each tile. -/
def exportLoop (cfg : Config) : List Tile → Int → List ExportedTile
  | [], _ => []
  | t :: ts, counter => exportTile cfg t counter :: exportLoop cfg ts (counter + 1)

/-- The errors `run` can return before/while planning. -/
inductive RunError where
  | dimension (w h : Nat)
  | noFit
deriving DecidableEq

/-- The validation-and-planning part of `run`: reject dimensions that are
not multiples of 16, otherwise plan on the `h/16 × w/16` unit grid. -/
def runPlan (img : Image) (nameRoot : String) : Except RunError (List Tile) :=
  let w := img.width
  let h := img.height
  if w % 16 ≠ 0 ∨ h % 16 ≠ 0 then .error (.dimension w h)
  else
    match MakeTilePlan img (h / 16) (w / 16) nameRoot with
    | some tiles => .ok tiles
    | none => .error .noFit

/-- `covers t y x`: the unit cell `(y, x)` lies inside tile `t`'s
footprint. -/
def covers (t : Tile) (y x : Nat) : Bool :=
  decide (t.r ≤ y ∧ y < t.r + t.canvas.UnitsH ∧ t.c ≤ x ∧ x < t.c + t.canvas.UnitsW)

/-- A tile's footprint stays inside the `rows×cols` grid. -/
def tileInBounds (rows cols : Nat) (t : Tile) : Prop :=
  t.r + t.canvas.UnitsH ≤ rows ∧ t.c + t.canvas.UnitsW ≤ cols

/-- The all-free occupancy grid the planner starts from. -/
def freeOcc : Occ := fun _ _ => false

/-- A concrete all-black test image of the given pixel size. -/
def testImg (w h : Nat) : Image :=
  { width := w, height := h, pix := fun _ _ => ⟨0, 0, 0, 0xFFFF⟩ }

/-- A concrete run configuration for witnesses. -/
def testCfg : Config :=
  { author := "A", title := "T", outDir := "out", nameRoot := "img", baseID := 0 }

/-- A concrete tile for witnesses. -/
def sampleTile : Tile :=
  { img := testImg 16 16, canvas := ⟨16, 16, 1, 1, 0⟩, fileBase := "img_0_0",
    tileIndex := 0, rowIndex := 0, r := 0, c := 0 }

/-- The first tile of the plan for a 32×48 test image (used to
instantiate naming facts at a concrete input). -/
def c5Tile : Tile :=
  { img := crop (testImg 32 48) 0 0 32 32, canvas := ⟨32, 32, 2, 2, 1⟩,
    fileBase := mkFileBase "img" 0 0, tileIndex := 0, rowIndex := 0, r := 0, c := 0 }

/-- The step relation between the `(anchorRow, rowGroupIndex, tileIndex)`
triples of two consecutive planned tiles: a tile placed while scanning
the same physical row keeps the row-group index and increments the tile
index by exactly one, while a tile placed in a later physical row (the
next row that produced any placement) advances the row-group index by
exactly one — however many fully-consumed physical rows were skipped in
between — and resets the tile index to `0`. -/
def rowStep (p q : Nat × Nat × Nat) : Prop :=
  (q.1 = p.1 ∧ q.2.1 = p.2.1 ∧ q.2.2 = p.2.2 + 1) ∨
    (p.1 < q.1 ∧ q.2.1 = p.2.1 + 1 ∧ q.2.2 = 0)

/-- The set of grid cells covered by a tile's footprint. -/
def footprint (t : Tile) : Finset (Nat × Nat) :=
  Finset.Ico t.r (t.r + t.canvas.UnitsH) ×ˢ Finset.Ico t.c (t.c + t.canvas.UnitsW)

/-- Numeric value of a decimal digit character (used to show decimal
rendering of counters is injective, so tile identities are distinct). -/
def digitVal (ch : Char) : Nat := ch.toNat - 48

/-- Value of a decimal digit string, most significant digit first,
starting from accumulator `a`. -/
def digitsVal (a : Nat) (l : List Char) : Nat :=
  l.foldl (fun acc ch => 10 * acc + digitVal ch) a

/-- The occupancy correspondence invariant of the planner: a cell is
marked occupied exactly when some already-placed tile covers it. -/
def occInv (occ : Occ) (tiles : List Tile) : Prop :=
  ∀ y x, occ y x = true ↔ ∃ t ∈ tiles, covers t y x = true

/-- Pairwise non-overlap of placed tiles. -/
def tilesDisjoint (tiles : List Tile) : Prop :=
  tiles.Pairwise fun a b => ∀ y x, covers a y x = true → covers b y x = false

/-- All placed tiles stay inside the grid. -/
def tilesBounded (rows cols : Nat) (tiles : List Tile) : Prop :=
  ∀ t ∈ tiles, tileInBounds rows cols t

/-! ### Basic facts about the occupancy grid and the catalog -/

theorem emptyRect_eq_true_iff (occ : Occ) (r c h w : Nat) :
    emptyRect occ r c h w = true ↔
      ∀ y x, r ≤ y → y < r + h → c ≤ x → x < c + w → occ y x = false := by
  simp only [emptyRect, List.all_eq_true, List.mem_range, Bool.not_eq_true']
  constructor
  · intro H y x hry hyrh hcx hxcw
    have h1 := H (y - r) (by omega) (x - c) (by omega)
    rwa [Nat.add_sub_cancel' hry, Nat.add_sub_cancel' hcx] at h1
  · intro H dy hdy dx hdx
    exact H (r + dy) (c + dx) (by omega) (by omega) (by omega) (by omega)

theorem mark_eq_true_iff (occ : Occ) (r c h w y x : Nat) :
    mark occ r c h w y x = true ↔
      (r ≤ y ∧ y < r + h ∧ c ≤ x ∧ x < c + w) ∨ occ y x = true := by
  unfold mark
  split
  next hcond => simp [hcond]
  next hcond => simp [hcond]

theorem canvasTypes_units_pos : ∀ can ∈ canvasTypes, 1 ≤ can.UnitsW ∧ 1 ≤ can.UnitsH := by
  decide

theorem fitsAt_eq_true_iff (occ : Occ) (rows cols r c : Nat) (can : Canvas) :
    fitsAt occ rows cols r c can = true ↔
      c + can.UnitsW ≤ cols ∧ r + can.UnitsH ≤ rows ∧
        emptyRect occ r c can.UnitsH can.UnitsW = true := by
  simp [fitsAt, and_assoc]

/-- `List.find?` returns the first element satisfying the predicate:
everything strictly earlier in the list fails it. -/
theorem find?_first_of_eq_some {α : Type} (p : α → Bool) (l : List α) (a : α)
    (h : l.find? p = some a) :
    ∃ i, ∃ hi : i < l.length, l.get ⟨i, hi⟩ = a ∧
      ∀ j, ∀ hj : j < i, p (l.get ⟨j, Nat.lt_trans hj hi⟩) = false := by
  induction l with
  | nil => simp [List.find?] at h
  | cons x xs ih =>
    by_cases hpx : p x = true
    · rw [List.find?_cons_of_pos _ hpx] at h
      obtain rfl : x = a := by injection h
      exact ⟨0, by simp, rfl, fun j hj => absurd hj (Nat.not_lt_zero j)⟩
    · rw [List.find?_cons_of_neg _ (by simpa using hpx)] at h
      obtain ⟨i, hi, hget, hfirst⟩ := ih h
      refine ⟨i + 1, by simpa using Nat.succ_lt_succ hi, hget, ?_⟩
      intro j hj
      cases j with
      | zero => simpa using hpx
      | succ j' => exact hfirst j' (Nat.lt_of_succ_lt_succ hj)

theorem selectCanvas_isSome (occ : Occ) (rows cols r c : Nat)
    (hr : r < rows) (hc : c < cols) (hfree : emptyRect occ r c 1 1 = true) :
    (selectCanvas occ rows cols r c).isSome = true := by
  rw [selectCanvas, List.find?_isSome]
  refine ⟨⟨16, 16, 1, 1, 0⟩, by simp [canvasTypes], ?_⟩
  rw [fitsAt_eq_true_iff]
  exact ⟨hc, hr, hfree⟩

theorem scanRowCells_isSome (img : Image) (rows cols : Nat) (root : String)
    (r g : Nat) (hr : r < rows) :
    ∀ (cs : List Nat) (occ : Occ) (tiles : List Tile) (k : Nat) (b : Bool),
      (∀ c ∈ cs, c < cols) →
      (scanRowCells img rows cols root r g cs occ tiles k b).isSome = true := by
  intro cs
  induction cs with
  | nil => intro occ tiles k b _; simp [scanRowCells]
  | cons c cs ih =>
    intro occ tiles k b hcs
    simp only [scanRowCells]
    by_cases hguard : emptyRect occ r c 1 1 = true
    · rw [if_pos hguard]
      have hsel := selectCanvas_isSome occ rows cols r c hr (hcs c (by simp)) hguard
      obtain ⟨can, hcan⟩ := Option.isSome_iff_exists.mp hsel
      rw [hcan]
      exact ih _ _ _ _ (fun c' hc' => hcs c' (by simp [hc']))
    · rw [if_neg hguard]
      exact ih _ _ _ _ (fun c' hc' => hcs c' (by simp [hc']))

theorem scanRows_isSome (img : Image) (rows cols : Nat) (root : String) :
    ∀ (rs : List Nat) (occ : Occ) (tiles : List Tile) (g : Nat),
      (∀ r ∈ rs, r < rows) →
      (scanRows img rows cols root rs occ tiles g).isSome = true := by
  intro rs
  induction rs with
  | nil => intro occ tiles g _; simp [scanRows]
  | cons r rs ih =>
    intro occ tiles g hrs
    simp only [scanRows]
    have hrow := scanRowCells_isSome img rows cols root r g (hrs r (by simp))
      (List.range cols) occ tiles 0 false (fun c hc => List.mem_range.mp hc)
    obtain ⟨⟨occ2, tiles2, k2, b2⟩, hval⟩ := Option.isSome_iff_exists.mp hrow
    rw [hval]
    exact ih _ _ _ (fun r' hr' => hrs r' (by simp [hr']))

/-- C9: the planner's no-fit branch is unreachable — at every free
in-bounds cell at least the 16×16 (1×1-unit) catalog entry fits, and the
whole plan always succeeds. -/
theorem claim_C9 (img : Image) (root : String) (rows cols : Nat)
    (h1 : 1 ≤ rows) (h2 : 1 ≤ cols) :
    (∀ occ r c, r < rows → c < cols → emptyRect occ r c 1 1 = true →
      (selectCanvas occ rows cols r c).isSome = true) ∧
    ∃ tiles, MakeTilePlan img rows cols root = some tiles := by
  constructor
  · intro occ r c hr hc hfree
    exact selectCanvas_isSome occ rows cols r c hr hc hfree
  · have h := scanRows_isSome img rows cols root (List.range rows) freeOcc [] 0
      (fun r hr => List.mem_range.mp hr)
    obtain ⟨tiles, htiles⟩ := Option.isSome_iff_exists.mp h
    exact ⟨tiles, htiles⟩

theorem claim_C9_witness :
    ∃ tiles, MakeTilePlan (testImg 16 16) 1 1 "img" = some tiles :=
  (claim_C9 (testImg 16 16) "img" 1 1 (by decide) (by decide)).2

/-- C2: the canvas selected at a cell is always the first catalog entry,
in the catalog's fixed order (which is sorted by descending pixel area),
whose footprint is in bounds and entirely free there; every strictly
earlier (hence at-least-as-large) entry fails the fit test. -/
theorem claim_C2 (occ : Occ) (rows cols r c : Nat) (can : Canvas)
    (h : selectCanvas occ rows cols r c = some can) :
    fitsAt occ rows cols r c can = true ∧
    List.Chain' (fun a b => Canvas.areaPx b ≤ Canvas.areaPx a) canvasTypes ∧
    ∃ i, ∃ hi : i < canvasTypes.length, canvasTypes.get ⟨i, hi⟩ = can ∧
      ∀ j, ∀ hj : j < i, fitsAt occ rows cols r c (canvasTypes.get ⟨j, Nat.lt_trans hj hi⟩) = false := by
  refine ⟨List.find?_some h, by simp [canvasTypes, Canvas.areaPx, List.chain'_cons], ?_⟩
  exact find?_first_of_eq_some _ _ _ h

theorem claim_C2_witness :
    fitsAt freeOcc 2 2 0 0 ⟨32, 32, 2, 2, 1⟩ = true ∧
    List.Chain' (fun a b => Canvas.areaPx b ≤ Canvas.areaPx a) canvasTypes ∧
    ∃ i, ∃ hi : i < canvasTypes.length, canvasTypes.get ⟨i, hi⟩ = ⟨32, 32, 2, 2, 1⟩ ∧
      ∀ j, ∀ hj : j < i, fitsAt freeOcc 2 2 0 0 (canvasTypes.get ⟨j, Nat.lt_trans hj hi⟩) = false :=
  claim_C2 freeOcc 2 2 0 0 ⟨32, 32, 2, 2, 1⟩ (by decide)

/-- C8: an image whose width or height is not a multiple of 16 is
rejected with the dimension error before planning; the planner (and so
its no-fit error) is never reached. -/
theorem claim_C8 (img : Image) (root : String)
    (h : img.width % 16 ≠ 0 ∨ img.height % 16 ≠ 0) :
    runPlan img root = .error (.dimension img.width img.height) := by
  simp [runPlan, h]

theorem claim_C8_witness :
    runPlan (testImg 17 16) "img" = .error (.dimension 17 16) :=
  claim_C8 (testImg 17 16) "img" (by decide)

/-! ### String helpers -/

theorem string_append_cancel_left {s a b : String} (h : s ++ a = s ++ b) : a = b := by
  have hd := congrArg String.data h
  simp only [String.data_append] at hd
  have hab := List.append_cancel_left hd
  cases a
  cases b
  exact congrArg String.mk hab

theorem mkFileBase_zero_zero (root : String) : mkFileBase root 0 0 = root ++ "_0_0" := by
  rw [mkFileBase, String.append_assoc, String.append_assoc, String.append_assoc]
  rfl

theorem mkFileBase_one_zero (root : String) : mkFileBase root 1 0 = root ++ "_1_0" := by
  rw [mkFileBase, String.append_assoc, String.append_assoc, String.append_assoc]
  rfl

/-- C4: on a 32×48-pixel image (a 3-row × 2-column unit grid) the plan
is exactly two tiles: a 32×32 (code 1) tile anchored at cell (0,0)
covering grid rows 0–1 and columns 0–1 with row-group index 0 and tile
index 0, and a 32×16 (code 2) tile anchored at cell (2,0) covering grid
row 2, columns 0–1, with row-group index 1 and tile index 0 — so its
file name root ends in `_1_0`, not `_2_0`. -/
theorem claim_C4 (img : Image) (root : String) :
    ∃ t1 t2, MakeTilePlan img 3 2 root = some [t1, t2] ∧
      t1.r = 0 ∧ t1.c = 0 ∧ t1.canvas.UnitsH = 2 ∧ t1.canvas.UnitsW = 2 ∧
      t1.canvas.CT = 1 ∧ t1.canvas.PxW = 32 ∧ t1.canvas.PxH = 32 ∧
      t1.rowIndex = 0 ∧ t1.tileIndex = 0 ∧ t1.fileBase = root ++ "_0_0" ∧
      t2.r = 2 ∧ t2.c = 0 ∧ t2.canvas.UnitsH = 1 ∧ t2.canvas.UnitsW = 2 ∧
      t2.canvas.CT = 2 ∧ t2.canvas.PxW = 32 ∧ t2.canvas.PxH = 16 ∧
      t2.rowIndex = 1 ∧ t2.tileIndex = 0 ∧ t2.fileBase = root ++ "_1_0" ∧
      t2.fileBase ≠ root ++ "_2_0" := by
  refine ⟨{ img := crop img 0 0 32 32, canvas := ⟨32, 32, 2, 2, 1⟩,
            fileBase := mkFileBase root 0 0, tileIndex := 0, rowIndex := 0, r := 0, c := 0 },
          { img := crop img 0 32 32 16, canvas := ⟨32, 16, 2, 1, 2⟩,
            fileBase := mkFileBase root 1 0, tileIndex := 0, rowIndex := 1, r := 2, c := 0 },
          by rfl, rfl, rfl, rfl, rfl, rfl, rfl, rfl, rfl, rfl,
          mkFileBase_zero_zero root, rfl, rfl, rfl, rfl, rfl, rfl, rfl, rfl, rfl,
          mkFileBase_one_zero root, ?_⟩
  rw [mkFileBase_one_zero root]
  intro h
  have h1 := string_append_cancel_left h
  have h2 := congrArg String.data h1
  simp at h2

/-! ### File naming invariant (C5) -/

theorem scanRowCells_names (img : Image) (rows cols : Nat) (root : String) (r g : Nat) :
    ∀ (cs : List Nat) (occ : Occ) (tiles : List Tile) (k : Nat) (b : Bool)
      (out : Occ × List Tile × Nat × Bool),
      scanRowCells img rows cols root r g cs occ tiles k b = some out →
      (∀ t ∈ tiles, t.fileBase = mkFileBase root t.rowIndex t.tileIndex) →
      ∀ t ∈ out.2.1, t.fileBase = mkFileBase root t.rowIndex t.tileIndex := by
  intro cs
  induction cs with
  | nil =>
    intro occ tiles k b out h hnames
    simp only [scanRowCells] at h
    obtain rfl : (occ, tiles, k, b) = out := by injection h
    exact hnames
  | cons c cs ih =>
    intro occ tiles k b out h hnames
    simp only [scanRowCells] at h
    by_cases hguard : emptyRect occ r c 1 1 = true
    · rw [if_pos hguard] at h
      cases hsel : selectCanvas occ rows cols r c with
      | none => rw [hsel] at h; exact absurd h (by simp)
      | some can =>
        rw [hsel] at h
        refine ih _ _ _ _ _ h ?_
        intro t ht
        rcases List.mem_append.mp ht with h1 | h1
        · exact hnames t h1
        · rcases List.mem_singleton.mp h1 with rfl
          rfl
    · rw [if_neg hguard] at h
      exact ih _ _ _ _ _ h hnames

theorem scanRows_names (img : Image) (rows cols : Nat) (root : String) :
    ∀ (rs : List Nat) (occ : Occ) (tiles : List Tile) (g : Nat) (out : List Tile),
      scanRows img rows cols root rs occ tiles g = some out →
      (∀ t ∈ tiles, t.fileBase = mkFileBase root t.rowIndex t.tileIndex) →
      ∀ t ∈ out, t.fileBase = mkFileBase root t.rowIndex t.tileIndex := by
  intro rs
  induction rs with
  | nil =>
    intro occ tiles g out h hnames
    simp only [scanRows] at h
    obtain rfl : tiles = out := by injection h
    exact hnames
  | cons r rs ih =>
    intro occ tiles g out h hnames
    simp only [scanRows] at h
    cases hrow : scanRowCells img rows cols root r g (List.range cols) occ tiles 0 false with
    | none => rw [hrow] at h; exact absurd h (by simp)
    | some st =>
      obtain ⟨occ2, tiles2, k2, b2⟩ := st
      rw [hrow] at h
      exact ih _ _ _ _ h (scanRowCells_names img rows cols root r g _ _ _ _ _ _ hrow hnames)

/-- C5: every planned tile's file base name is
`<nameRoot>_<rowGroupIndex>_<tileIndexWithinGroup>`, and `exportTile`
uses that same base for both output files, adding only the raster and
descriptor extensions. -/
theorem claim_C5 (img : Image) (rows cols : Nat) (cfg : Config) (counter : Int)
    (tiles : List Tile) (h : MakeTilePlan img rows cols cfg.nameRoot = some tiles) :
    ∀ t ∈ tiles,
      t.fileBase = mkFileBase cfg.nameRoot t.rowIndex t.tileIndex ∧
      (exportTile cfg t counter).bmpPath =
        pathJoin cfg.outDir (mkFileBase cfg.nameRoot t.rowIndex t.tileIndex ++ ".bmp") ∧
      (exportTile cfg t counter).paintPath =
        pathJoin cfg.outDir (mkFileBase cfg.nameRoot t.rowIndex t.tileIndex ++ ".paint") := by
  intro t ht
  have hname := scanRows_names img rows cols cfg.nameRoot (List.range rows) freeOcc [] 0 tiles h
    (by intro t' ht'; exact absurd ht' (List.not_mem_nil t')) t ht
  exact ⟨hname, by simp [exportTile, hname], by simp [exportTile, hname]⟩

theorem claim_C5_witness :
    c5Tile.fileBase = mkFileBase testCfg.nameRoot c5Tile.rowIndex c5Tile.tileIndex ∧
    (exportTile testCfg c5Tile 0).bmpPath =
      pathJoin testCfg.outDir
        (mkFileBase testCfg.nameRoot c5Tile.rowIndex c5Tile.tileIndex ++ ".bmp") ∧
    (exportTile testCfg c5Tile 0).paintPath =
      pathJoin testCfg.outDir
        (mkFileBase testCfg.nameRoot c5Tile.rowIndex c5Tile.tileIndex ++ ".paint") :=
  claim_C5 (testImg 32 48) 3 2 testCfg 0
    ((MakeTilePlan (testImg 32 48) 3 2 testCfg.nameRoot).getD []) rfl c5Tile
    (List.mem_cons_self _ _)

/-! ### Row-major pixel extraction (C6) -/

theorem flatMap_rowMajor_length {α : Type} (g : Nat → Nat → α) (W : Nat) :
    ∀ (H a : Nat),
      ((List.range' a H).flatMap fun yy => (List.range W).map fun xx => g xx yy).length =
        H * W := by
  intro H
  induction H with
  | zero => intro a; simp
  | succ H ih =>
    intro a
    rw [List.range'_succ, List.flatMap_cons, List.length_append, ih (a + 1)]
    simp [Nat.succ_mul, Nat.add_comm]

theorem flatMap_rowMajor_getElem? {α : Type} (g : Nat → Nat → α) (W : Nat) :
    ∀ (H a y x : Nat), y < H → x < W →
      ((List.range' a H).flatMap fun yy => (List.range W).map fun xx => g xx yy)[y * W + x]? =
        some (g x (a + y)) := by
  intro H
  induction H with
  | zero => intro a y x hy hx; omega
  | succ H ih =>
    intro a y x hy hx
    rw [List.range'_succ, List.flatMap_cons]
    have hlen : ((List.range W).map fun xx => g xx a).length = W := by simp
    cases y with
    | zero =>
      rw [List.getElem?_append_left (by rw [hlen]; omega)]
      simp [List.getElem?_range hx]
    | succ y' =>
      have hidx : (y' + 1) * W + x = W + (y' * W + x) := by ring
      have h1 : ((List.range W).map fun xx => g xx a).length ≤ W + (y' * W + x) := by
        rw [hlen]
        exact Nat.le_add_right W _
      rw [hidx, List.getElem?_append_right h1, hlen, Nat.add_sub_cancel_left]
      have h2 := ih (a + 1) y' x (by omega) hx
      rw [h2]
      have h3 : a + 1 + y' = a + (y' + 1) := by omega
      rw [h3]

/-! ### Row-group / tile-index bookkeeping (C3) -/

theorem scanRowCells_pairs (img : Image) (rows cols : Nat) (root : String) (r g : Nat) :
    ∀ (cs : List Nat) (occ : Occ) (tiles : List Tile) (k : Nat) (b : Bool)
      (out : Occ × List Tile × Nat × Bool),
      scanRowCells img rows cols root r g cs occ tiles k b = some out →
      ∃ n, (out.2.1.map fun t => (t.r, t.rowIndex, t.tileIndex)) =
          (tiles.map fun t => (t.r, t.rowIndex, t.tileIndex)) ++
            ((List.range' k n).map fun i => (r, g, i)) ∧
        out.2.2.1 = k + n ∧ out.2.2.2 = (b || decide (0 < n)) := by
  intro cs
  induction cs with
  | nil =>
    intro occ tiles k b out h
    simp only [scanRowCells] at h
    obtain rfl : (occ, tiles, k, b) = out := by injection h
    exact ⟨0, by simp, by simp, by simp⟩
  | cons c cs ih =>
    intro occ tiles k b out h
    simp only [scanRowCells] at h
    by_cases hguard : emptyRect occ r c 1 1 = true
    · rw [if_pos hguard] at h
      cases hsel : selectCanvas occ rows cols r c with
      | none => rw [hsel] at h; exact absurd h (by simp)
      | some can =>
        rw [hsel] at h
        obtain ⟨n, hmap, hk, hb⟩ := ih _ _ _ _ _ h
        refine ⟨n + 1, ?_, by omega, by simp [hb]⟩
        rw [hmap, List.range'_succ, List.map_cons, List.map_append]
        simp
    · rw [if_neg hguard] at h
      exact ih _ _ _ _ _ h

theorem chain'_rowTriple (r g : Nat) :
    ∀ (n k : Nat), List.Chain' rowStep ((List.range' k n).map fun i => (r, g, i)) := by
  intro n
  induction n with
  | zero => intro k; simp
  | succ m ih =>
    intro k
    rw [List.range'_succ, List.map_cons]
    cases m with
    | zero => simp
    | succ m' =>
      have h1 := ih (k + 1)
      rw [List.range'_succ, List.map_cons] at h1 ⊢
      exact List.chain'_cons.mpr ⟨Or.inl ⟨rfl, rfl, rfl⟩, h1⟩

theorem getLast?_rowTriple (r g : Nat) :
    ∀ (n k : Nat), 0 < n →
      ((List.range' k n).map fun i => (r, g, i)).getLast? = some (r, g, k + (n - 1)) := by
  intro n
  induction n with
  | zero => intro k h; omega
  | succ m ih =>
    intro k _
    rw [List.range'_succ, List.map_cons]
    cases m with
    | zero => simp
    | succ m' =>
      have h1 := ih (k + 1) (by omega)
      rw [List.range'_succ, List.map_cons] at h1 ⊢
      rw [List.getLast?_cons_cons, h1]
      have e : k + 1 + (m' + 1 - 1) = k + (m' + 1 + 1 - 1) := by omega
      rw [e]

theorem head?_rowTriple (r g n k : Nat) (h : 0 < n) :
    ((List.range' k n).map fun i => (r, g, i)).head? = some (r, g, k) := by
  cases n with
  | zero => omega
  | succ m => rw [List.range'_succ, List.map_cons, List.head?_cons]

theorem option_mem_some {α : Type} {a b : α} (h : a ∈ some b) : a = b := by
  have h1 := Option.mem_def.mp h
  injection h1 with h2
  exact h2.symm

theorem scanRows_chain (img : Image) (rows cols : Nat) (root : String) :
    ∀ (rs : List Nat) (occ : Occ) (tiles : List Tile) (g : Nat) (out : List Tile),
      scanRows img rows cols root rs occ tiles g = some out →
      List.Pairwise (· < ·) rs →
      (∀ q ∈ (tiles.map fun t => (t.r, t.rowIndex, t.tileIndex)).head?,
        q.2.1 = 0 ∧ q.2.2 = 0) →
      List.Chain' rowStep (tiles.map fun t => (t.r, t.rowIndex, t.tileIndex)) →
      ((tiles = [] ∧ g = 0) ∨
        (∃ p, (tiles.map fun t => (t.r, t.rowIndex, t.tileIndex)).getLast? = some p ∧
          p.2.1 + 1 = g ∧ ∀ r' ∈ rs, p.1 < r')) →
      (∀ q ∈ (out.map fun t => (t.r, t.rowIndex, t.tileIndex)).head?,
        q.2.1 = 0 ∧ q.2.2 = 0) ∧
      List.Chain' rowStep (out.map fun t => (t.r, t.rowIndex, t.tileIndex)) := by
  intro rs
  induction rs with
  | nil =>
    intro occ tiles g out h _ hhead hchain _
    simp only [scanRows] at h
    obtain rfl : tiles = out := by injection h
    exact ⟨hhead, hchain⟩
  | cons r rs ih =>
    intro occ tiles g out h hsorted hhead hchain hlink
    rw [List.pairwise_cons] at hsorted
    obtain ⟨hlt, hsorted2⟩ := hsorted
    simp only [scanRows] at h
    cases hrow : scanRowCells img rows cols root r g (List.range cols) occ tiles 0 false with
    | none => rw [hrow] at h; exact absurd h (by simp)
    | some st =>
      obtain ⟨occ2, tiles2, k2, b2⟩ := st
      rw [hrow] at h
      obtain ⟨n, hmap, hk, hb⟩ := scanRowCells_pairs img rows cols root r g _ _ _ _ _ _ hrow
      dsimp only at hmap hk hb
      by_cases hn : n = 0
      · subst hn
        rw [List.range'_zero, List.map_nil, List.append_nil] at hmap
        have hb2 : b2 = false := by rw [hb]; simp
        rw [hb2] at h
        simp only [Bool.false_eq_true, if_false] at h
        refine ih _ _ _ _ h hsorted2 ?_ ?_ ?_
        · rw [hmap]; exact hhead
        · rw [hmap]; exact hchain
        · rcases hlink with ⟨htn, hg⟩ | ⟨p, hp, hpg, hplt⟩
          · refine Or.inl ⟨?_, hg⟩
            have hnil : tiles2.map (fun t => (t.r, t.rowIndex, t.tileIndex)) = [] := by
              rw [hmap, htn, List.map_nil]
            exact List.map_eq_nil_iff.mp hnil
          · exact Or.inr ⟨p, by rw [hmap]; exact hp, hpg,
              fun r' hr' => hplt r' (List.mem_cons_of_mem r hr')⟩
      · have hpos : 0 < n := Nat.pos_of_ne_zero hn
        have hb2 : b2 = true := by rw [hb]; simp [hpos]
        rw [hb2] at h
        simp only [if_true] at h
        have hnew_head := head?_rowTriple r g n 0 hpos
        have hnew_last := getLast?_rowTriple r g n 0 hpos
        have hnew_chain := chain'_rowTriple r g n 0
        refine ih _ _ _ _ h hsorted2 ?_ ?_ ?_
        · -- the head of the accumulated triples still has indices (0, 0)
          rw [hmap]
          rcases hlink with ⟨htn, hg⟩ | ⟨p, hp, hpg, hplt⟩
          · subst htn
            subst hg
            rw [List.map_nil, List.nil_append]
            intro q hq
            rw [hnew_head] at hq
            rw [option_mem_some hq]
            exact ⟨rfl, rfl⟩
          · cases hml : tiles.map (fun t => (t.r, t.rowIndex, t.tileIndex)) with
            | nil => rw [hml] at hp; simp at hp
            | cons a l =>
              rw [List.cons_append]
              intro q hq
              rw [List.head?_cons] at hq
              rw [option_mem_some hq]
              exact hhead a (by rw [hml]; rfl)
        · -- the chain extends across the tiles appended for this row
          rw [hmap, List.chain'_append]
          refine ⟨hchain, hnew_chain, ?_⟩
          intro x hx y hy
          rw [hnew_head] at hy
          rw [option_mem_some hy]
          rcases hlink with ⟨htn, hg⟩ | ⟨p, hp, hpg, hplt⟩
          · rw [htn, List.map_nil, List.getLast?_nil] at hx
            simp at hx
          · rw [hp] at hx
            rw [option_mem_some hx]
            exact Or.inr ⟨hplt r (List.mem_cons_self r rs), hpg.symm, rfl⟩
        · -- the next row-group index is one past the last emitted triple,
          -- whose anchor row is the row just scanned
          refine Or.inr ⟨(r, g, 0 + (n - 1)), ?_, rfl, fun r' hr' => hlt r' hr'⟩
          rw [hmap, List.getLast?_append, hnew_last]
          rfl

/-- C3: along the planned tile sequence, read as
`(anchor physical row, rowGroupIndex, tileIndex)` triples, the indices
start at `(0, 0)` and advance in lock-step with the physical scan rows:
a consecutive tile anchored in the same physical row keeps the row-group
index and increments the tile index by exactly one (one increment per
placement in that row), and a consecutive tile anchored in a later
physical row advances the row-group index by exactly one and resets the
tile index to `0` — so physical rows that produced no placement (rows
fully consumed by taller tiles from earlier rows) never advance the
row-group index, and the tile index resets only when the row-group
index advances. -/
theorem claim_C3 (img : Image) (rows cols : Nat) (root : String) (tiles : List Tile)
    (h : MakeTilePlan img rows cols root = some tiles) :
    (∀ q ∈ (tiles.map fun t => (t.r, t.rowIndex, t.tileIndex)).head?,
      q.2.1 = 0 ∧ q.2.2 = 0) ∧
    List.Chain' rowStep (tiles.map fun t => (t.r, t.rowIndex, t.tileIndex)) := by
  refine scanRows_chain img rows cols root (List.range rows) freeOcc [] 0 tiles h
    (List.pairwise_lt_range rows) ?_ ?_ ?_
  · intro q hq; simp at hq
  · simp
  · exact Or.inl ⟨rfl, rfl⟩

theorem claim_C3_witness :
    (∀ q ∈ (((MakeTilePlan (testImg 32 48) 3 2 "img").getD []).map
        fun t => (t.r, t.rowIndex, t.tileIndex)).head?, q.2.1 = 0 ∧ q.2.2 = 0) ∧
    List.Chain' rowStep (((MakeTilePlan (testImg 32 48) 3 2 "img").getD []).map
      fun t => (t.r, t.rowIndex, t.tileIndex)) :=
  claim_C3 (testImg 32 48) 3 2 "img" ((MakeTilePlan (testImg 32 48) 3 2 "img").getD []) rfl

/-- C6: for a tile of pixel width `W` and height `H`, the descriptor's
pixel array has length exactly `W·H`, built row-major (`y` outer, `x`
inner), and element `y·W + x` packs alpha `0xFF` in the most significant
byte followed by the red, green and blue channels of the cropped
region's pixel at `(x, y)`, each truncated from 16-bit native precision
to 8 bits by dropping the low byte. -/
theorem claim_C6 (cfg : Config) (tile : Tile) (counter : Int) (W H : Nat)
    (hw : tile.img.width = W) (hh : tile.img.height = H) :
    (exportTile cfg tile counter).data.pixels.length = W * H ∧
    ∀ y x, y < H → x < W →
      (exportTile cfg tile counter).data.pixels[y * W + x]? =
        some (0xFF * 2 ^ 24 + (tile.img.pix x y).r / 2 ^ 8 % 2 ^ 8 * 2 ^ 16 +
          (tile.img.pix x y).g / 2 ^ 8 % 2 ^ 8 * 2 ^ 8 +
          (tile.img.pix x y).b / 2 ^ 8 % 2 ^ 8) := by
  have hpx : (exportTile cfg tile counter).data.pixels = buildPixels tile.img := rfl
  rw [hpx]
  unfold buildPixels
  rw [List.range_eq_range', hw, hh]
  constructor
  · rw [flatMap_rowMajor_length]
    exact Nat.mul_comm H W
  · intro y x hy hx
    rw [flatMap_rowMajor_getElem? _ W H 0 y x hy hx]
    simp [packPixel]

theorem claim_C6_witness :
    (exportTile testCfg sampleTile 0).data.pixels.length = 16 * 16 ∧
    ∀ y x, y < 16 → x < 16 →
      (exportTile testCfg sampleTile 0).data.pixels[y * 16 + x]? =
        some (0xFF * 2 ^ 24 + (sampleTile.img.pix x y).r / 2 ^ 8 % 2 ^ 8 * 2 ^ 16 +
          (sampleTile.img.pix x y).g / 2 ^ 8 % 2 ^ 8 * 2 ^ 8 +
          (sampleTile.img.pix x y).b / 2 ^ 8 % 2 ^ 8) :=
  claim_C6 testCfg sampleTile 0 16 16 rfl rfl

/-! ### Tile identity uniqueness (C7) -/

theorem digitVal_digitChar (d : Nat) (h : d < 10) : digitVal (Nat.digitChar d) = d := by
  interval_cases d <;> rfl

theorem digitsVal_cons (a : Nat) (ch : Char) (l : List Char) :
    digitsVal a (ch :: l) = digitsVal (10 * a + digitVal ch) l := rfl

theorem toDigitsCore_val : ∀ (f n : Nat) (ds : List Char), n < 10 ^ f →
    digitsVal 0 (Nat.toDigitsCore 10 f n ds) = digitsVal n ds := by
  intro f
  induction f with
  | zero =>
    intro n ds h
    have hn : n = 0 := by simpa using h
    subst hn
    rfl
  | succ f ih =>
    intro n ds h
    simp only [Nat.toDigitsCore]
    by_cases h0 : n / 10 = 0
    · rw [if_pos h0, digitsVal_cons, digitVal_digitChar (n % 10) (Nat.mod_lt n (by norm_num))]
      have hn : n < 10 := by omega
      simp [Nat.mod_eq_of_lt hn]
    · rw [if_neg h0]
      have hdiv : n / 10 < 10 ^ f := by
        rw [Nat.div_lt_iff_lt_mul (by norm_num)]
        calc n < 10 ^ (f + 1) := h
          _ = 10 ^ f * 10 := by ring
      rw [ih (n / 10) _ hdiv, digitsVal_cons,
        digitVal_digitChar (n % 10) (Nat.mod_lt n (by norm_num))]
      rw [Nat.div_add_mod]

theorem lt_ten_pow (n : Nat) : n < 10 ^ (n + 1) := by
  calc n < 2 ^ n := Nat.lt_two_pow n
    _ ≤ 10 ^ n := Nat.pow_le_pow_left (by norm_num) n
    _ < 10 ^ (n + 1) := Nat.pow_lt_pow_succ (by norm_num)

theorem digitsVal_toDigits (n : Nat) : digitsVal 0 (Nat.toDigits 10 n) = n := by
  rw [Nat.toDigits, toDigitsCore_val (n + 1) n [] (lt_ten_pow n)]
  rfl

theorem natRepr_injective : Function.Injective Nat.repr := by
  intro m n h
  have hlist : Nat.toDigits 10 m = Nat.toDigits 10 n := by
    have hd := congrArg String.data h
    simpa [Nat.repr, List.asString] using hd
  have h1 := digitsVal_toDigits m
  rw [hlist, digitsVal_toDigits n] at h1
  exact h1.symm

theorem toDigitsCore_head : ∀ (f n : Nat) (ds : List Char), 0 < f →
    ∃ d, d < 10 ∧ ∃ t, Nat.toDigitsCore 10 f n ds = Nat.digitChar d :: t := by
  intro f
  induction f with
  | zero => intro n ds h; omega
  | succ f ih =>
    intro n ds _
    simp only [Nat.toDigitsCore]
    by_cases h0 : n / 10 = 0
    · rw [if_pos h0]
      exact ⟨n % 10, Nat.mod_lt n (by norm_num), ds, rfl⟩
    · rw [if_neg h0]
      cases f with
      | zero => exact ⟨n % 10, Nat.mod_lt n (by norm_num), ds, rfl⟩
      | succ f' => exact ih (n / 10) _ (by omega)

theorem digitChar_ne_dash (d : Nat) (h : d < 10) : Nat.digitChar d ≠ '-' := by
  interval_cases d <;> decide

theorem natRepr_head_not_dash (n : Nat) :
    ∃ d t, d < 10 ∧ (Nat.repr n).data = Nat.digitChar d :: t := by
  obtain ⟨d, hd, t, ht⟩ := toDigitsCore_head (n + 1) n [] (by omega)
  exact ⟨d, t, hd, by rw [Nat.repr, Nat.toDigits, ht]; rfl⟩

theorem natRepr_ne_dash_append (m k : Nat) : Nat.repr m ≠ "-" ++ Nat.repr k := by
  intro h
  obtain ⟨d, t, hd, ht⟩ := natRepr_head_not_dash m
  have hdata := congrArg String.data h
  rw [ht, String.data_append] at hdata
  have hdash : ("-" : String).data = ['-'] := rfl
  rw [hdash] at hdata
  injection hdata with h1 _
  exact digitChar_ne_dash d hd h1

theorem intRepr_injective : Function.Injective Int.repr := by
  intro a b h
  cases a with
  | ofNat m =>
    cases b with
    | ofNat n => exact congrArg Int.ofNat (natRepr_injective h)
    | negSucc n =>
      exact absurd (show Nat.repr m = "-" ++ Nat.repr (n + 1) from h)
        (natRepr_ne_dash_append m (n + 1))
  | negSucc m =>
    cases b with
    | ofNat n =>
      exact absurd (show Nat.repr n = "-" ++ Nat.repr (m + 1) from h.symm)
        (natRepr_ne_dash_append n (m + 1))
    | negSucc n =>
      have h0 : "-" ++ Nat.repr (m + 1) = "-" ++ Nat.repr (n + 1) := h
      have h2 := natRepr_injective (string_append_cancel_left h0)
      exact congrArg Int.negSucc (by omega)

/-- Two `int64` sums `baseID + i`, `baseID + j` with `i, j` less than
`2^64` apart wrap to the same value only when `i = j`. -/
theorem int64Add_inj_window (b : Int) (i j : Nat) (hi : i < 2 ^ 64) (hj : j < 2 ^ 64)
    (h : int64Add b i = int64Add b j) : i = j := by
  unfold int64Add wrap64 at h
  omega

theorem mkName_inj_window (b : Int) (i j : Nat) (hi : i < 2 ^ 64) (hj : j < 2 ^ 64)
    (h : mkName b i = mkName b j) : i = j := by
  have h1 : Int.repr (int64Add b i) = Int.repr (int64Add b j) :=
    string_append_cancel_left (string_append_cancel_left (by
      simpa [mkName, String.append_assoc] using h))
  exact int64Add_inj_window b i j hi hj (intRepr_injective h1)

theorem exportLoop_names (cfg : Config) :
    ∀ (tiles : List Tile) (k : Int),
      ((exportLoop cfg tiles k).map fun e => e.data.name) =
        (List.range tiles.length).map fun i : Nat => mkName cfg.baseID (k + (i : Int)) := by
  intro tiles
  induction tiles with
  | nil => intro k; rfl
  | cons t ts ih =>
    intro k
    simp only [exportLoop, List.map_cons, List.length_cons]
    rw [List.range_succ_eq_map, List.map_cons, ih (k + 1), List.map_map]
    congr 1
    · norm_num [exportTile]
    · apply List.map_congr_left
      intro a _
      simp only [Function.comp]
      congr 1
      push_cast
      ring

/-- C7: the identity (`name`) strings of a run's exported tiles are
`<namespaceUUID>_<baseID + counter>` with the counter starting at 0 and
increasing by exactly 1 per tile in planning order, and they are
pairwise distinct.  The bound `N ≤ 2^63` is implicit in the code: the
tile list is a Go slice, whose length is a nonnegative `int64`. -/
theorem claim_C7 (cfg : Config) (tiles : List Tile)
    (h1 : 1 ≤ tiles.length) (hN : tiles.length ≤ 2 ^ 63) :
    ((exportLoop cfg tiles 0).map fun e => e.data.name) =
      ((List.range tiles.length).map fun i : Nat => mkName cfg.baseID (i : Int)) ∧
    ((exportLoop cfg tiles 0).map fun e => e.data.name).Pairwise (· ≠ ·) := by
  have hnames := exportLoop_names cfg tiles 0
  have hzero : ((List.range tiles.length).map fun i : Nat => mkName cfg.baseID ((0 : Int) + (i : Int))) =
      (List.range tiles.length).map fun i : Nat => mkName cfg.baseID (i : Int) := by
    apply List.map_congr_left
    intro a _
    rw [Int.zero_add]
  rw [hnames, hzero]
  refine ⟨rfl, ?_⟩
  rw [List.pairwise_map]
  refine List.Pairwise.imp_of_mem ?_ (List.pairwise_lt_range tiles.length)
  intro i j hmi hmj hij hEq
  have hi := List.mem_range.mp hmi
  have hj := List.mem_range.mp hmj
  have := mkName_inj_window cfg.baseID i j (by omega) (by omega) hEq
  omega

theorem claim_C7_witness :
    ((exportLoop testCfg [sampleTile] 0).map fun e => e.data.name) =
      ((List.range (List.length [sampleTile])).map fun i : Nat => mkName testCfg.baseID (i : Int)) ∧
    ((exportLoop testCfg [sampleTile] 0).map fun e => e.data.name).Pairwise (· ≠ ·) :=
  claim_C7 testCfg [sampleTile] (by decide) (by decide)

/-! ### Exact coverage of the grid (C1) -/

theorem covers_eq_true_iff (t : Tile) (y x : Nat) :
    covers t y x = true ↔
      t.r ≤ y ∧ y < t.r + t.canvas.UnitsH ∧ t.c ≤ x ∧ x < t.c + t.canvas.UnitsW := by
  simp [covers]

theorem occ_true_of_emptyRect_false (occ : Occ) (r c : Nat)
    (h : emptyRect occ r c 1 1 = false) : occ r c = true := by
  cases hb : occ r c with
  | true => rfl
  | false =>
    have ht : emptyRect occ r c 1 1 = true := by
      rw [emptyRect_eq_true_iff]
      intro y x h1 h2 h3 h4
      have hy : y = r := by omega
      have hx : x = c := by omega
      rw [hy, hx]
      exact hb
    rw [ht] at h
    simp at h

theorem scanRowCells_inv (img : Image) (rows cols : Nat) (root : String) (r g : Nat)
    (hr : r < rows) :
    ∀ (cs : List Nat) (occ : Occ) (tiles : List Tile) (k : Nat) (b : Bool)
      (out : Occ × List Tile × Nat × Bool),
      scanRowCells img rows cols root r g cs occ tiles k b = some out →
      (∀ c ∈ cs, c < cols) →
      occInv occ tiles → tilesDisjoint tiles → tilesBounded rows cols tiles →
      (∃ pre, out.2.1 = tiles ++ pre) ∧
      occInv out.1 out.2.1 ∧ tilesDisjoint out.2.1 ∧ tilesBounded rows cols out.2.1 ∧
      (∀ y x, occ y x = true → out.1 y x = true) ∧
      (∀ c ∈ cs, out.1 r c = true) := by
  intro cs
  induction cs with
  | nil =>
    intro occ tiles k b out h hcs hinv hdisj hbnd
    simp only [scanRowCells] at h
    obtain rfl : (occ, tiles, k, b) = out := by injection h
    exact ⟨⟨[], by simp⟩, hinv, hdisj, hbnd, fun y x hy => hy,
      fun c hc => absurd hc (List.not_mem_nil c)⟩
  | cons c cs ih =>
    intro occ tiles k b out h hcs hinv hdisj hbnd
    have hccol : c < cols := hcs c (by simp)
    have hcs' : ∀ c' ∈ cs, c' < cols := fun c' hc' => hcs c' (by simp [hc'])
    simp only [scanRowCells] at h
    by_cases hguard : emptyRect occ r c 1 1 = true
    · rw [if_pos hguard] at h
      cases hsel : selectCanvas occ rows cols r c with
      | none => rw [hsel] at h; exact absurd h (by simp)
      | some can =>
        rw [hsel] at h
        have hfits := List.find?_some hsel
        rw [fitsAt_eq_true_iff] at hfits
        obtain ⟨hcw, hrh, hfree⟩ := hfits
        obtain ⟨hW1, hH1⟩ := canvasTypes_units_pos can (List.mem_of_find?_eq_some hsel)
        have hfreecell := (emptyRect_eq_true_iff occ r c can.UnitsH can.UnitsW).mp hfree
        set t : Tile := { img := crop img (c * 16) (r * 16) can.PxW can.PxH,
                          canvas := can, fileBase := mkFileBase root g k,
                          tileIndex := k, rowIndex := g, r := r, c := c } with htdef
        have hcov_t : ∀ y x, covers t y x = true ↔
            (r ≤ y ∧ y < r + can.UnitsH ∧ c ≤ x ∧ x < c + can.UnitsW) := by
          intro y x
          rw [covers_eq_true_iff]
        have hinv2 : occInv (mark occ r c can.UnitsH can.UnitsW) (tiles ++ [t]) := by
          intro y x
          rw [mark_eq_true_iff]
          constructor
          · rintro (hin | hocc)
            · exact ⟨t, List.mem_append_right _ (by simp), (hcov_t y x).mpr hin⟩
            · obtain ⟨t', ht', hcovt'⟩ := (hinv y x).mp hocc
              exact ⟨t', List.mem_append_left _ ht', hcovt'⟩
          · rintro ⟨t', ht', hcovt'⟩
            rcases List.mem_append.mp ht' with hmem | hmem
            · exact Or.inr ((hinv y x).mpr ⟨t', hmem, hcovt'⟩)
            · rcases List.mem_singleton.mp hmem with rfl
              exact Or.inl ((hcov_t y x).mp hcovt')
        have hdisj2 : tilesDisjoint (tiles ++ [t]) := by
          rw [tilesDisjoint, List.pairwise_append]
          refine ⟨hdisj, by simp, ?_⟩
          intro a ha b' hb'
          rcases List.mem_singleton.mp hb' with rfl
          intro y x hcova
          cases hc2 : covers t y x with
          | false => rfl
          | true =>
            exfalso
            obtain ⟨hy1, hy2, hx1, hx2⟩ := (hcov_t y x).mp hc2
            have hoccyx : occ y x = true := (hinv y x).mpr ⟨a, ha, hcova⟩
            rw [hfreecell y x hy1 hy2 hx1 hx2] at hoccyx
            simp at hoccyx
        have hbnd2 : tilesBounded rows cols (tiles ++ [t]) := by
          intro t' ht'
          rcases List.mem_append.mp ht' with hmem | hmem
          · exact hbnd t' hmem
          · rcases List.mem_singleton.mp hmem with rfl
            exact ⟨hrh, hcw⟩
        obtain ⟨⟨pre, hpre⟩, hinvO, hdisjO, hbndO, hmono, hcells⟩ :=
          ih _ _ _ _ _ h hcs' hinv2 hdisj2 hbnd2
        refine ⟨⟨[t] ++ pre, by rw [hpre, List.append_assoc]⟩, hinvO, hdisjO, hbndO, ?_, ?_⟩
        · intro y x hy
          exact hmono y x ((mark_eq_true_iff occ r c can.UnitsH can.UnitsW y x).mpr (Or.inr hy))
        · intro c' hc'
          rcases List.mem_cons.mp hc' with rfl | hmem
          · exact hmono r c' ((mark_eq_true_iff occ r c' can.UnitsH can.UnitsW r c').mpr
              (Or.inl ⟨Nat.le_refl r, by omega, Nat.le_refl c', by omega⟩))
          · exact hcells c' hmem
    · rw [if_neg hguard] at h
      have hocc_c : occ r c = true :=
        occ_true_of_emptyRect_false occ r c (by
          cases hb : emptyRect occ r c 1 1 with
          | false => rfl
          | true => exact absurd hb hguard)
      obtain ⟨hpre, hinvO, hdisjO, hbndO, hmono, hcells⟩ :=
        ih _ _ _ _ _ h hcs' hinv hdisj hbnd
      refine ⟨hpre, hinvO, hdisjO, hbndO, hmono, ?_⟩
      intro c' hc'
      rcases List.mem_cons.mp hc' with rfl | hmem
      · exact hmono r c' hocc_c
      · exact hcells c' hmem

theorem scanRows_inv (img : Image) (rows cols : Nat) (root : String) :
    ∀ (rs : List Nat) (occ : Occ) (tiles : List Tile) (g : Nat) (out : List Tile),
      scanRows img rows cols root rs occ tiles g = some out →
      (∀ r ∈ rs, r < rows) →
      occInv occ tiles → tilesDisjoint tiles → tilesBounded rows cols tiles →
      tilesDisjoint out ∧ tilesBounded rows cols out ∧
      (∀ y x, occ y x = true → ∃ t ∈ out, covers t y x = true) ∧
      (∀ r ∈ rs, ∀ c, c < cols → ∃ t ∈ out, covers t r c = true) := by
  intro rs
  induction rs with
  | nil =>
    intro occ tiles g out h hrs hinv hdisj hbnd
    simp only [scanRows] at h
    obtain rfl : tiles = out := by injection h
    exact ⟨hdisj, hbnd, fun y x hy => (hinv y x).mp hy,
      fun r hr => absurd hr (List.not_mem_nil r)⟩
  | cons r rs ih =>
    intro occ tiles g out h hrs hinv hdisj hbnd
    have hrrow : r < rows := hrs r (by simp)
    have hrs' : ∀ r' ∈ rs, r' < rows := fun r' hr' => hrs r' (by simp [hr'])
    simp only [scanRows] at h
    cases hrow : scanRowCells img rows cols root r g (List.range cols) occ tiles 0 false with
    | none => rw [hrow] at h; exact absurd h (by simp)
    | some st =>
      obtain ⟨occ2, tiles2, k2, b2⟩ := st
      rw [hrow] at h
      obtain ⟨⟨pre, hpre⟩, hinv2, hdisj2, hbnd2, hmono2, hcells2⟩ :=
        scanRowCells_inv img rows cols root r g hrrow (List.range cols) occ tiles 0 false
          _ hrow (fun c hc => List.mem_range.mp hc) hinv hdisj hbnd
      obtain ⟨hdisjO, hbndO, hoccO, hrowsO⟩ := ih _ _ _ _ h hrs' hinv2 hdisj2 hbnd2
      refine ⟨hdisjO, hbndO, ?_, ?_⟩
      · intro y x hy
        exact hoccO y x (hmono2 y x hy)
      · intro r' hr' c hc
        rcases List.mem_cons.mp hr' with rfl | hmem
        · exact hoccO r' c (hcells2 c (List.mem_range.mpr hc))
        · exact hrowsO r' hmem c hc

theorem countP_eq_one_of_pairwise {α : Type} (p : α → Bool) :
    ∀ (l : List α), l.Pairwise (fun a b => p a = true → p b = false) →
      (∃ a ∈ l, p a = true) → l.countP p = 1 := by
  intro l
  induction l with
  | nil =>
    rintro _ ⟨a, ha, _⟩
    exact absurd ha (List.not_mem_nil a)
  | cons x' l ih =>
    intro hpw hex
    rw [List.pairwise_cons] at hpw
    obtain ⟨hx, hl⟩ := hpw
    rw [List.countP_cons]
    by_cases hpx : p x' = true
    · have hzero : l.countP p = 0 := by
        rw [List.countP_eq_zero]
        intro a ha
        rw [hx a ha hpx]
        simp
      rw [hzero, if_pos hpx]
    · have hpx' : p x' ≠ true := hpx
      obtain ⟨a, ha, hpa⟩ := hex
      rcases List.mem_cons.mp ha with rfl | ha'
      · exact absurd hpa hpx
      · rw [ih hl ⟨a, ha', hpa⟩, if_neg hpx']

theorem mem_footprint (t : Tile) (yx : Nat × Nat) :
    yx ∈ footprint t ↔ covers t yx.1 yx.2 = true := by
  rw [footprint, Finset.mem_product, Finset.mem_Ico, Finset.mem_Ico, covers_eq_true_iff]
  constructor
  · rintro ⟨⟨h1, h2⟩, h3, h4⟩; exact ⟨h1, h2, h3, h4⟩
  · rintro ⟨h1, h2, h3, h4⟩; exact ⟨⟨h1, h2⟩, h3, h4⟩

theorem card_footprint (t : Tile) :
    (footprint t).card = t.canvas.UnitsH * t.canvas.UnitsW := by
  rw [footprint, Finset.card_product, Nat.card_Ico, Nat.card_Ico]
  congr 1 <;> omega

theorem sum_countP_grid (rows cols : Nat) :
    ∀ (tiles : List Tile), tilesBounded rows cols tiles →
      (Finset.sum ((Finset.range rows) ×ˢ (Finset.range cols)) fun yx =>
          tiles.countP fun t => covers t yx.1 yx.2) =
        (tiles.map fun t => t.canvas.UnitsH * t.canvas.UnitsW).sum := by
  intro tiles
  induction tiles with
  | nil => intro _; simp
  | cons t ts ih =>
    intro hbnd
    have hb_t := hbnd t (by simp)
    have hb_ts : tilesBounded rows cols ts := fun t' ht' => hbnd t' (by simp [ht'])
    simp only [List.countP_cons, List.map_cons, List.sum_cons]
    rw [Finset.sum_add_distrib, ih hb_ts]
    have hfset : ((Finset.range rows) ×ˢ (Finset.range cols)).filter
        (fun yx => covers t yx.1 yx.2 = true) = footprint t := by
      apply Finset.ext
      intro yx
      rw [Finset.mem_filter, mem_footprint]
      constructor
      · rintro ⟨_, hc⟩; exact hc
      · intro hc
        refine ⟨?_, hc⟩
        rw [Finset.mem_product, Finset.mem_range, Finset.mem_range]
        rw [covers_eq_true_iff] at hc
        obtain ⟨hbH, hbW⟩ := hb_t
        constructor <;> omega
    have hite : (Finset.sum ((Finset.range rows) ×ˢ (Finset.range cols)) fun yx =>
        if covers t yx.1 yx.2 = true then 1 else 0) = t.canvas.UnitsH * t.canvas.UnitsW := by
      rw [Finset.sum_boole, hfset, card_footprint]
      simp
    rw [hite]
    omega

/-- C1: for any grid with at least one row and one column, planning
succeeds with every grid cell covered by exactly one placed tile's
footprint (no gaps, no double coverage), and the unit areas of the
placed tiles sum to `rows·cols`. -/
theorem claim_C1 (img : Image) (root : String) (rows cols : Nat) (tiles : List Tile)
    (h1 : 1 ≤ rows) (h2 : 1 ≤ cols)
    (h : MakeTilePlan img rows cols root = some tiles) :
    (∀ y, y < rows → ∀ x, x < cols → (tiles.countP fun t => covers t y x) = 1) ∧
    (tiles.map fun t => t.canvas.UnitsW * t.canvas.UnitsH).sum = rows * cols := by
  have hinv0 : occInv freeOcc [] := by
    intro y x
    simp [freeOcc]
  have hdisj0 : tilesDisjoint ([] : List Tile) := List.Pairwise.nil
  have hbnd0 : tilesBounded rows cols [] := fun t ht => absurd ht (List.not_mem_nil t)
  obtain ⟨hdisj, hbnd, hocc, hcov⟩ := scanRows_inv img rows cols root (List.range rows)
    freeOcc [] 0 tiles h (fun r hr => List.mem_range.mp hr) hinv0 hdisj0 hbnd0
  have hone : ∀ y, y < rows → ∀ x, x < cols → (tiles.countP fun t => covers t y x) = 1 := by
    intro y hy x hx
    apply countP_eq_one_of_pairwise
    · exact hdisj.imp fun hab hpa => hab y x hpa
    · exact hcov y (List.mem_range.mpr hy) x hx
  refine ⟨hone, ?_⟩
  have hsum := sum_countP_grid rows cols tiles hbnd
  have hconst : (Finset.sum ((Finset.range rows) ×ˢ (Finset.range cols)) fun yx =>
      tiles.countP fun t => covers t yx.1 yx.2) = rows * cols := by
    have hall : ∀ yx ∈ (Finset.range rows) ×ˢ (Finset.range cols),
        (tiles.countP fun t => covers t yx.1 yx.2) = 1 := by
      intro yx hyx
      rw [Finset.mem_product, Finset.mem_range, Finset.mem_range] at hyx
      exact hone yx.1 hyx.1 yx.2 hyx.2
    rw [Finset.sum_congr rfl hall, Finset.sum_const, Finset.card_product,
      Finset.card_range, Finset.card_range, smul_eq_mul, mul_one]
  rw [hconst] at hsum
  have hmaps : (tiles.map fun t => t.canvas.UnitsW * t.canvas.UnitsH) =
      tiles.map fun t => t.canvas.UnitsH * t.canvas.UnitsW := by
    apply List.map_congr_left
    intro a _
    ring
  rw [hmaps, ← hsum]

theorem claim_C1_witness :
    (∀ y, y < 2 → ∀ x, x < 2 →
      ((((MakeTilePlan (testImg 32 32) 2 2 "img").getD []).countP
        fun t => covers t y x) = 1)) ∧
    ((((MakeTilePlan (testImg 32 32) 2 2 "img").getD []).map
      fun t => t.canvas.UnitsW * t.canvas.UnitsH).sum = 2 * 2) :=
  claim_C1 (testImg 32 32) "img" 2 2 ((MakeTilePlan (testImg 32 32) 2 2 "img").getD [])
    (by decide) (by decide) rfl

/-! ### Even grids tile entirely with 32×32 canvases (C10) -/

theorem scanRowFull (img : Image) (rows cols : Nat) (root : String) (r g : Nat) :
    ∀ (cs : List Nat) (occ : Occ) (tiles : List Tile) (k : Nat) (b : Bool),
      (∀ c ∈ cs, occ r c = true) →
      scanRowCells img rows cols root r g cs occ tiles k b = some (occ, tiles, k, b) := by
  intro cs
  induction cs with
  | nil => intro occ tiles k b _; simp [scanRowCells]
  | cons c cs ih =>
    intro occ tiles k b hfull
    have hocc_c : occ r c = true := hfull c (by simp)
    have hg : emptyRect occ r c 1 1 = false := by
      cases hb : emptyRect occ r c 1 1 with
      | false => rfl
      | true =>
        have := (emptyRect_eq_true_iff occ r c 1 1).mp hb r c (Nat.le_refl r) (by omega)
          (Nat.le_refl c) (by omega)
        rw [this] at hocc_c
        simp at hocc_c
    simp only [scanRowCells]
    rw [if_neg (by simp [hg])]
    exact ih occ tiles k b (fun c' hc' => hfull c' (by simp [hc']))

theorem rowPairScan (img : Image) (rows cols : Nat) (root : String) (r g : Nat)
    (hr2 : r + 2 ≤ rows) :
    ∀ (m c₀ : Nat) (occ : Occ) (tiles : List Tile) (k : Nat) (b : Bool),
      cols = c₀ + 2 * m →
      (∀ y x, r ≤ y → y < r + 2 → c₀ ≤ x → x < cols → occ y x = false) →
      ∃ occF newTiles,
        scanRowCells img rows cols root r g (List.range' c₀ (2 * m)) occ tiles k b =
          some (occF, tiles ++ newTiles, k + m, b || decide (0 < m)) ∧
        newTiles.length = m ∧
        (∀ t ∈ newTiles, t.canvas.CT = 1) ∧
        (∀ y x, occF y x = true ↔
          (r ≤ y ∧ y < r + 2 ∧ c₀ ≤ x ∧ x < c₀ + 2 * m) ∨ occ y x = true) := by
  intro m
  induction m with
  | zero =>
    intro c₀ occ tiles k b hcols hfree
    refine ⟨occ, [], by simp [scanRowCells], by simp, by simp, ?_⟩
    intro y x
    constructor
    · intro hocc
      exact Or.inr hocc
    · rintro (⟨h1, h2, h3, h4⟩ | hocc)
      · omega
      · exact hocc
  | succ m ih =>
    intro c₀ occ tiles k b hcols hfree
    have hrange : List.range' c₀ (2 * (m + 1)) =
        c₀ :: (c₀ + 1) :: List.range' (c₀ + 2) (2 * m) := by
      have h1 : 2 * (m + 1) = (2 * m + 1) + 1 := by ring
      rw [h1, List.range'_succ, List.range'_succ]
    rw [hrange]
    have hg1 : emptyRect occ r c₀ 1 1 = true := by
      rw [emptyRect_eq_true_iff]
      intro y x h1 h2 h3 h4
      exact hfree y x h1 (by omega) (by omega) (by omega)
    have hsel : selectCanvas occ rows cols r c₀ = some ⟨32, 32, 2, 2, 1⟩ := by
      rw [selectCanvas, canvasTypes]
      apply List.find?_cons_of_pos
      rw [fitsAt_eq_true_iff]
      refine ⟨?_, ?_, ?_⟩
      · show c₀ + 2 ≤ cols
        omega
      · show r + 2 ≤ rows
        omega
      · show emptyRect occ r c₀ 2 2 = true
        rw [emptyRect_eq_true_iff]
        intro y x h1 h2 h3 h4
        exact hfree y x h1 (by omega) (by omega) (by omega)
    have hg2 : emptyRect (mark occ r c₀ 2 2) r (c₀ + 1) 1 1 = false := by
      cases hb2 : emptyRect (mark occ r c₀ 2 2) r (c₀ + 1) 1 1 with
      | false => rfl
      | true =>
        exfalso
        have hfalse := (emptyRect_eq_true_iff (mark occ r c₀ 2 2) r (c₀ + 1) 1 1).mp hb2
          r (c₀ + 1) (Nat.le_refl r) (by omega) (Nat.le_refl (c₀ + 1)) (by omega)
        have htrue : mark occ r c₀ 2 2 r (c₀ + 1) = true :=
          (mark_eq_true_iff occ r c₀ 2 2 r (c₀ + 1)).mpr
            (Or.inl ⟨Nat.le_refl r, by omega, by omega, by omega⟩)
        rw [htrue] at hfalse
        simp at hfalse
    have hfree1 : ∀ y x, r ≤ y → y < r + 2 → c₀ + 2 ≤ x → x < cols →
        mark occ r c₀ 2 2 y x = false := by
      intro y x h1 h2 h3 h4
      have hnot : ¬(r ≤ y ∧ y < r + 2 ∧ c₀ ≤ x ∧ x < c₀ + 2) := by omega
      simp only [mark]
      rw [if_neg hnot]
      exact hfree y x h1 h2 (by omega) h4
    obtain ⟨occF, newTiles, hscan, hlen, hct, hoccF⟩ :=
      ih (c₀ + 2) (mark occ r c₀ 2 2)
        (tiles ++ [{ img := crop img (c₀ * 16) (r * 16) 32 32, canvas := ⟨32, 32, 2, 2, 1⟩,
                     fileBase := mkFileBase root g k, tileIndex := k, rowIndex := g,
                     r := r, c := c₀ }])
        (k + 1) true (by omega) hfree1
    refine ⟨occF,
      { img := crop img (c₀ * 16) (r * 16) 32 32, canvas := ⟨32, 32, 2, 2, 1⟩,
        fileBase := mkFileBase root g k, tileIndex := k, rowIndex := g,
        r := r, c := c₀ } :: newTiles, ?_, by simp [hlen], ?_, ?_⟩
    · simp only [scanRowCells, hg1, eq_self_iff_true, if_true, hsel, hg2,
        Bool.false_eq_true, if_false]
      rw [hscan]
      have e1 : ∀ (A B : List Tile) (x : Tile), (A ++ [x]) ++ B = A ++ (x :: B) := by
        intro A B x
        simp
      have e2 : k + 1 + m = k + (m + 1) := by omega
      rw [e1, e2]
      simp
    · intro t' ht'
      rcases List.mem_cons.mp ht' with rfl | hmem
      · rfl
      · exact hct t' hmem
    · intro y x
      rw [hoccF y x]
      constructor
      · rintro (⟨h1, h2, h3, h4⟩ | hocc1)
        · exact Or.inl ⟨h1, h2, by omega, by omega⟩
        · rw [mark_eq_true_iff] at hocc1
          rcases hocc1 with ⟨h1, h2, h3, h4⟩ | hocc
          · exact Or.inl ⟨h1, h2, h3, by omega⟩
          · exact Or.inr hocc
      · rintro (⟨h1, h2, h3, h4⟩ | hocc)
        · by_cases hx : x < c₀ + 2
          · exact Or.inr ((mark_eq_true_iff occ r c₀ 2 2 y x).mpr (Or.inl ⟨h1, h2, h3, hx⟩))
          · exact Or.inl ⟨h1, h2, by omega, by omega⟩
        · exact Or.inr ((mark_eq_true_iff occ r c₀ 2 2 y x).mpr (Or.inr hocc))

theorem scanRowsEven (img : Image) (rows cols : Nat) (root : String)
    (hcols2 : 2 ≤ cols) (hce : cols % 2 = 0) :
    ∀ (kk r₀ : Nat) (occ : Occ) (tiles : List Tile) (g : Nat),
      rows = r₀ + 2 * kk →
      (∀ y x, r₀ ≤ y → x < cols → occ y x = false) →
      ∃ newTiles,
        scanRows img rows cols root (List.range' r₀ (2 * kk)) occ tiles g =
          some (tiles ++ newTiles) ∧
        newTiles.length = kk * (cols / 2) ∧
        (∀ t ∈ newTiles, t.canvas.CT = 1) := by
  intro kk
  induction kk with
  | zero =>
    intro r₀ occ tiles g _ _
    exact ⟨[], by simp [scanRows], by simp, by simp⟩
  | succ kk ih =>
    intro r₀ occ tiles g hrows hfree
    have hrange : List.range' r₀ (2 * (kk + 1)) =
        r₀ :: (r₀ + 1) :: List.range' (r₀ + 2) (2 * kk) := by
      have h1 : 2 * (kk + 1) = (2 * kk + 1) + 1 := by ring
      rw [h1, List.range'_succ, List.range'_succ]
    rw [hrange]
    have hcols_eq : cols = 0 + 2 * (cols / 2) := by omega
    obtain ⟨occF, new0, hscan0, hlen0, hct0, hoccF0⟩ :=
      rowPairScan img rows cols root r₀ g (by omega) (cols / 2) 0 occ tiles 0 false
        hcols_eq (fun y x h1 h2 h3 h4 => hfree y x h1 h4)
    have hrc : List.range cols = List.range' 0 (2 * (cols / 2)) := by
      rw [List.range_eq_range']
      congr 1
      omega
    have hscan0' : scanRowCells img rows cols root r₀ g (List.range cols) occ tiles 0 false =
        some (occF, tiles ++ new0, 0 + cols / 2, false || decide (0 < cols / 2)) := by
      rw [hrc]
      exact hscan0
    have hm : 0 < cols / 2 := by omega
    have hb0 : (false || decide (0 < cols / 2)) = true := by simp [hm]
    have hfull : ∀ c ∈ List.range cols, occF (r₀ + 1) c = true := by
      intro c hc
      rw [hoccF0]
      exact Or.inl ⟨by omega, by omega, by omega, by
        rw [List.mem_range] at hc
        omega⟩
    have hrowfull := scanRowFull img rows cols root (r₀ + 1) (g + 1) (List.range cols)
      occF (tiles ++ new0) 0 false hfull
    have hfree2 : ∀ y x, r₀ + 2 ≤ y → x < cols → occF y x = false := by
      intro y x h1 h4
      cases hb : occF y x with
      | false => rfl
      | true =>
        exfalso
        rw [hoccF0 y x] at hb
        rcases hb with ⟨hh1, hh2, hh3, hh4⟩ | hocc
        · omega
        · rw [hfree y x (by omega) h4] at hocc
          simp at hocc
    obtain ⟨new1, hscan1, hlen1, hct1⟩ := ih (r₀ + 2) occF (tiles ++ new0) (g + 1)
      (by omega) hfree2
    refine ⟨new0 ++ new1, ?_, ?_, ?_⟩
    · simp only [scanRows, hscan0', hb0, eq_self_iff_true, if_true, hrowfull,
        Bool.false_eq_true, if_false]
      rw [hscan1, List.append_assoc]
    · rw [List.length_append, hlen0, hlen1]
      ring
    · intro t ht
      rcases List.mem_append.mp ht with hmem | hmem
      · exact hct0 t hmem
      · exact hct1 t hmem

/-- C10: on a grid whose row and column counts are both even (and at
least 2), the greedy planner places only 32×32 (type code 1) tiles, and
the number of tiles is `rows·cols/4`. -/
theorem claim_C10 (img : Image) (root : String) (rows cols : Nat) (tiles : List Tile)
    (hrows2 : 2 ≤ rows) (hcols2 : 2 ≤ cols) (hre : rows % 2 = 0) (hce : cols % 2 = 0)
    (h : MakeTilePlan img rows cols root = some tiles) :
    (∀ t ∈ tiles, t.canvas.CT = 1) ∧ tiles.length = rows * cols / 4 := by
  obtain ⟨newTiles, hscan, hlen, hct⟩ := scanRowsEven img rows cols root hcols2 hce
    (rows / 2) 0 freeOcc [] 0 (by omega) (fun y x _ _ => rfl)
  have hrr : List.range rows = List.range' 0 (2 * (rows / 2)) := by
    rw [List.range_eq_range']
    congr 1
    omega
  have h2 : scanRows img rows cols root (List.range' 0 (2 * (rows / 2))) freeOcc [] 0 =
      some tiles := by
    rw [← hrr]
    exact h
  rw [hscan, List.nil_append] at h2
  obtain rfl : newTiles = tiles := by injection h2
  refine ⟨hct, ?_⟩
  rw [hlen]
  have h4 : rows * cols = (rows / 2 * (cols / 2)) * 4 := by
    have : rows = 2 * (rows / 2) := by omega
    have : cols = 2 * (cols / 2) := by omega
    nlinarith [Nat.div_add_mod rows 2, Nat.div_add_mod cols 2]
  omega

theorem claim_C10_witness :
    (∀ t ∈ (MakeTilePlan (testImg 64 32) 2 4 "img").getD [], t.canvas.CT = 1) ∧
    ((MakeTilePlan (testImg 64 32) 2 4 "img").getD []).length = 2 * 4 / 4 :=
  claim_C10 (testImg 64 32) "img" 2 4 ((MakeTilePlan (testImg 64 32) 2 4 "img").getD [])
    (by decide) (by decide) (by decide) (by decide) rfl

end Subdivider
